import Mathlib

/-!
Shallow embedding of `metastore.py` (the MetadataStore RPC service of
FileStoreApp) and proofs about its version/consistency state machine.

Modelling decisions, kept faithful to the Python source:
* The three instance dictionaries (`filename_hashlist`, `filename_version`,
  `tombstone_filename_version`) become partial maps `String → Option _`.
* Python ints become `Int` (versions and shard indices are client-supplied).
* A blockstore connection is used only through `conn.root.has_block(hash)`,
  so it is embedded as a predicate `String → Bool`; the connection pool
  `self.blockstore_conns` is a `List` of those, indexed with Python list
  semantics (negative indices count from the back, out-of-range raises
  IndexError).
* Exceptions become explicit result constructors: the typed
  `ErrorResponse` variants (`missingBlocks`, `versionConflict`, `notFound`)
  plus the untyped escapes Python can raise (`indexError` from
  `self.blockstore_conns[server_no]`, `keyError` from dictionary access on
  an absent key).  A raise leaves the state as it was at that point, so an
  error branch returns the state it was reached with.
-/

/-- A hashlist entry `[hashkey, blocklocation]`: block hash and shard index. -/
abbrev HashNode := String × Int

/-- `str -> [[hashkey, blocklocation], ...]` values: the ordered blockList. -/
abbrev HashList := List HashNode

/-- A Python dict keyed by filename, as a partial map. -/
abbrev Dict (α : Type) := String → Option α

/-- The empty dict `dict()`. -/
def Dict.empty {α : Type} : Dict α := fun _ => none

/-- `d[k] = v` (insert or overwrite). -/
def Dict.insert {α : Type} (m : Dict α) (k : String) (v : α) : Dict α :=
  fun q => if q = k then some v else m q

/-- `del d[k]` on a key assumed present (on an absent key the call site
    models the KeyError separately). -/
def Dict.erase {α : Type} (m : Dict α) (k : String) : Dict α :=
  fun q => if q = k then none else m q

/-- A blockstore connection, used only as `conn.root.has_block(h)`. -/
abbrev BlockStore := String → Bool

/-- Python list indexing `xs[i]`: a non-negative index counts from the
    front, a negative one from the back; `none` models IndexError. -/
def pyIndex {α : Type} (xs : List α) (i : Int) : Option α :=
  if 0 ≤ i then xs.get? i.toNat
  else if (-i).toNat ≤ xs.length then xs.get? (xs.length - (-i).toNat)
  else none

/-- The in-memory state of the `MetadataStore` service: the three
    dictionaries built in `__init__` (lines 44-47 of metastore.py). -/
structure MetadataStore where
  filename_hashlist : Dict HashList
  filename_version : Dict Int
  tombstone_filename_version : Dict Int

/-- Outcome of `exposed_modify_file`: the `return 0` success, the two typed
    `ErrorResponse`s it raises, and the untyped IndexError / KeyError
    escapes. -/
inductive ModifyResult where
  | ok (ret : Int)
  | versionConflict (current : Int)
  | missingBlocks (hashes : List String)
  | indexError
  | keyError
deriving DecidableEq

/-- Outcome of `exposed_delete_file`: the returned new version, the typed
    errors, and the KeyError escape. -/
inductive DeleteResult where
  | ok (newVersion : Int)
  | versionConflict (current : Int)
  | notFound
  | keyError
deriving DecidableEq

/-- The block-gathering loop of `exposed_modify_file` (lines 86-92):
    for each `[hash, serverNo]` look up `blockstore_conns[serverNo]`
    (IndexError, modelled as `none`, aborts the call) and accumulate, in
    blockList order, every hash whose shard reports absence. -/
def gather_missing_blocks (conns : List BlockStore) : HashList → Option (List String)
  | [] => some []
  | node :: rest =>
    match pyIndex conns node.2 with
    | none => none
    | some conn =>
      match gather_missing_blocks conns rest with
      | none => none
      | some ms => some (if conn node.1 then ms else node.1 :: ms)

/-- Lines 85-112 of `exposed_modify_file`: everything after the version
    check.  Gather missing blocks; if none are missing, commit: an entry in
    `filename_hashlist` bumps `filename_version` (KeyError if the version
    dict has no entry), a tombstoned name resumes from `tombstone + 1` and
    the tombstone is deleted, an unknown name starts at version 1; in every
    commit branch the submitted hashlist is installed verbatim.  A nonempty
    missing list raises the `missingBlocks` ErrorResponse. -/
def modify_after_version_check (s : MetadataStore) (conns : List BlockStore)
    (filename : String) (hashlist : HashList) : MetadataStore × ModifyResult :=
  match gather_missing_blocks conns hashlist with
  | none => (s, ModifyResult.indexError)
  | some [] =>
    match s.filename_hashlist filename with
    | some _ =>
      match s.filename_version filename with
      | some cur =>
        ({ filename_hashlist := Dict.insert s.filename_hashlist filename hashlist,
           filename_version := Dict.insert s.filename_version filename (cur + 1),
           tombstone_filename_version := s.tombstone_filename_version },
         ModifyResult.ok 0)
      | none => (s, ModifyResult.keyError)
    | none =>
      match s.tombstone_filename_version filename with
      | some t =>
        ({ filename_hashlist := Dict.insert s.filename_hashlist filename hashlist,
           filename_version := Dict.insert s.filename_version filename (t + 1),
           tombstone_filename_version := Dict.erase s.tombstone_filename_version filename },
         ModifyResult.ok 0)
      | none =>
        ({ filename_hashlist := Dict.insert s.filename_hashlist filename hashlist,
           filename_version := Dict.insert s.filename_version filename 1,
           tombstone_filename_version := s.tombstone_filename_version },
         ModifyResult.ok 0)
  | some ms => (s, ModifyResult.missingBlocks ms)

/-- `exposed_modify_file(self, filename, version, hashlist)` (lines 71-112):
    if the filename has an entry in `filename_version` and the proposed
    version is not exactly one larger, raise the `versionConflict`
    ErrorResponse carrying the current version; otherwise proceed to block
    validation and commit. -/
def exposed_modify_file (s : MetadataStore) (conns : List BlockStore)
    (filename : String) (version : Int) (hashlist : HashList) :
    MetadataStore × ModifyResult :=
  match s.filename_version filename with
  | some cur =>
    if version ≠ cur + 1 then (s, ModifyResult.versionConflict cur)
    else modify_after_version_check s conns filename hashlist
  | none => modify_after_version_check s conns filename hashlist

/-- `exposed_delete_file(self, filename, version)` (lines 122-144): an
    entry in `filename_version` requires `version == current + 1`, then
    records `current + 1` in the tombstone dict, deletes the hashlist entry
    (KeyError here happens after the tombstone write) and the version
    entry, and returns the tombstone version; a tombstone-only entry
    requires `version == tombstone + 1` and increments it in place; with no
    entry anywhere it raises the notFound ErrorResponse. -/
def exposed_delete_file (s : MetadataStore) (filename : String) (version : Int) :
    MetadataStore × DeleteResult :=
  match s.filename_version filename with
  | some cur =>
    if version ≠ cur + 1 then (s, DeleteResult.versionConflict cur)
    else
      match s.filename_hashlist filename with
      | some _ =>
        ({ filename_hashlist := Dict.erase s.filename_hashlist filename,
           filename_version := Dict.erase s.filename_version filename,
           tombstone_filename_version :=
             Dict.insert s.tombstone_filename_version filename (cur + 1) },
         DeleteResult.ok (cur + 1))
      | none =>
        ({ s with tombstone_filename_version :=
             Dict.insert s.tombstone_filename_version filename (cur + 1) },
         DeleteResult.keyError)
  | none =>
    match s.tombstone_filename_version filename with
    | some t =>
      if version ≠ t + 1 then (s, DeleteResult.versionConflict t)
      else
        ({ s with tombstone_filename_version :=
             Dict.insert s.tombstone_filename_version filename (t + 1) },
         DeleteResult.ok (t + 1))
    | none => (s, DeleteResult.notFound)

/-- `exposed_read_file(self, filename)` (lines 155-164): a hashlist entry
    returns `(version, hashlist)` (`none` models the KeyError when the
    version dict disagrees), a tombstone-only entry returns
    `(tombstoneVersion, [])`, otherwise `(0, [])`.  The method performs no
    assignment, so the embedding returns no state. -/
def exposed_read_file (s : MetadataStore) (filename : String) :
    Option (Int × HashList) :=
  match s.filename_hashlist filename with
  | some hl =>
    match s.filename_version filename with
    | some v => some (v, hl)
    | none => none
  | none =>
    match s.tombstone_filename_version filename with
    | some t => some (t, [])
    | none => some (0, [])

/-- The state right after `__init__`: all three dicts empty. -/
def initState : MetadataStore :=
  { filename_hashlist := Dict.empty,
    filename_version := Dict.empty,
    tombstone_filename_version := Dict.empty }

/-- One client RPC against the service.  Each modify step carries its own
    shard contents, since blocks may be uploaded or evicted between calls;
    a read performs no assignment, so it leaves the state unchanged. -/
inductive Step : MetadataStore → MetadataStore → Prop where
  | modify (s : MetadataStore) (conns : List BlockStore) (filename : String)
      (version : Int) (hashlist : HashList) :
      Step s (exposed_modify_file s conns filename version hashlist).1
  | delete (s : MetadataStore) (filename : String) (version : Int) :
      Step s (exposed_delete_file s filename version).1
  | read (s : MetadataStore) (filename : String) : Step s s

/-- States reachable from `initState` by some sequence of RPCs. -/
inductive Reachable : MetadataStore → Prop where
  | init : Reachable initState
  | step {s t : MetadataStore} : Reachable s → Step s t → Reachable t

/-- The well-formedness invariant of the service state: the active dicts
    share one key set, an active name is not tombstoned, and every recorded
    version is at least 1. -/
def WF (s : MetadataStore) : Prop :=
  ∀ f : String,
    ((s.filename_hashlist f).isSome ↔ (s.filename_version f).isSome)
    ∧ ((s.filename_version f).isSome → s.tombstone_filename_version f = none)
    ∧ (∀ v : Int, s.filename_version f = some v → 1 ≤ v)
    ∧ (∀ v : Int, s.tombstone_filename_version f = some v → 1 ≤ v)

/-- The version a client can observe for a filename: the active version,
    else the tombstone version, else 0 (what `exposed_read_file` reports in
    the first component on well-formed states). -/
def currentVersion (s : MetadataStore) (f : String) : Int :=
  match s.filename_version f with
  | some v => v
  | none =>
    match s.tombstone_filename_version f with
    | some v => v
    | none => 0

/-- The shard's `has_block` answer for one hashlist entry, seen through
    Python indexing of the connection pool; the value at an out-of-range
    index is irrelevant (that path raises IndexError) and fixed to `true`. -/
def hasBlockAt (conns : List BlockStore) (p : HashNode) : Bool :=
  match pyIndex conns p.2 with
  | some conn => conn p.1
  | none => true

/-! ### Concrete data for spot checks (the scenario of the spec, section 8:
one shard holding exactly the blocks h1 and h2) -/

def connsEx : List BlockStore := [fun h => h == "h1" || h == "h2"]

def hlEx : HashList := [("h1", 0), ("h2", 0)]

/-- A blockList mixing present (h1, h2) and absent (h3, h4) blocks. -/
def hlMiss : HashList := [("h1", 0), ("h3", 0), ("h2", 0), ("h4", 0)]

/-- The state where "a.txt" is Active at version 1 with blockList `hlEx`
    (the state `exposed_modify_file` builds from `initState`). -/
def sActive : MetadataStore :=
  { filename_hashlist := Dict.insert Dict.empty "a.txt" hlEx,
    filename_version := Dict.insert Dict.empty "a.txt" 1,
    tombstone_filename_version := Dict.empty }

/-- A state where "d.txt" is Tombstoned at version 2. -/
def sTomb : MetadataStore :=
  { filename_hashlist := Dict.empty,
    filename_version := Dict.empty,
    tombstone_filename_version := Dict.insert Dict.empty "d.txt" 2 }

/-! ### Basic lemmas -/

theorem Dict.empty_apply {α : Type} (q : String) : (Dict.empty : Dict α) q = none := rfl

theorem Dict.insert_apply {α : Type} (m : Dict α) (k q : String) (v : α) :
    Dict.insert m k v q = if q = k then some v else m q := rfl

theorem Dict.erase_apply {α : Type} (m : Dict α) (k q : String) :
    Dict.erase m k q = if q = k then none else m q := rfl

/-! ### Preservation of the well-formedness invariant -/

theorem wf_init : WF initState := by
  intro f
  refine ⟨Iff.rfl, ?_, ?_, ?_⟩
  · intro h; simp [initState, Dict.empty_apply] at h
  · intro w hw; simp [initState, Dict.empty_apply] at hw
  · intro w hw; simp [initState, Dict.empty_apply] at hw

theorem wf_modify_after (s : MetadataStore) (conns : List BlockStore)
    (f : String) (hl : HashList) (hwf : WF s) :
    WF (modify_after_version_check s conns f hl).1 := by
  unfold modify_after_version_check
  cases hg : gather_missing_blocks conns hl with
  | none => exact hwf
  | some ms =>
    cases ms with
    | cons a l => exact hwf
    | nil =>
      cases hh : s.filename_hashlist f with
      | some hl0 =>
        cases hv : s.filename_version f with
        | none => exact hwf
        | some cur =>
          intro g
          obtain ⟨w1, w2, w3, w4⟩ := hwf g
          obtain ⟨_, _, w3f, _⟩ := hwf f
          by_cases hgf : g = f
          · subst hgf
            refine ⟨by simp [Dict.insert_apply], ?_, ?_, w4⟩
            · intro _
              exact w2 (by simp [hv])
            · intro w hw
              have h1 : 1 ≤ cur := w3f cur hv
              simp [Dict.insert_apply] at hw
              omega
          · simp only [Dict.insert_apply, if_neg hgf]
            exact ⟨w1, w2, w3, w4⟩
      | none =>
        cases ht : s.tombstone_filename_version f with
        | some t =>
          intro g
          obtain ⟨w1, w2, w3, w4⟩ := hwf g
          obtain ⟨_, _, _, w4f⟩ := hwf f
          by_cases hgf : g = f
          · subst hgf
            refine ⟨by simp [Dict.insert_apply], ?_, ?_, ?_⟩
            · intro _; simp [Dict.erase_apply]
            · intro w hw
              have h1 : 1 ≤ t := w4f t ht
              simp [Dict.insert_apply] at hw
              omega
            · intro w hw
              simp [Dict.erase_apply] at hw
          · simp only [Dict.insert_apply, Dict.erase_apply, if_neg hgf]
            exact ⟨w1, w2, w3, w4⟩
        | none =>
          intro g
          obtain ⟨w1, w2, w3, w4⟩ := hwf g
          by_cases hgf : g = f
          · subst hgf
            refine ⟨by simp [Dict.insert_apply], ?_, ?_, w4⟩
            · intro _; exact ht
            · intro w hw
              simp [Dict.insert_apply] at hw
              omega
          · simp only [Dict.insert_apply, if_neg hgf]
            exact ⟨w1, w2, w3, w4⟩

theorem wf_modify (s : MetadataStore) (conns : List BlockStore) (f : String)
    (v : Int) (hl : HashList) (hwf : WF s) :
    WF (exposed_modify_file s conns f v hl).1 := by
  unfold exposed_modify_file
  cases hv : s.filename_version f with
  | some cur =>
    by_cases hveq : v ≠ cur + 1
    · simp only [if_pos hveq]; exact hwf
    · simp only [if_neg hveq]; exact wf_modify_after s conns f hl hwf
  | none => exact wf_modify_after s conns f hl hwf

theorem wf_delete (s : MetadataStore) (f : String) (v : Int) (hwf : WF s) :
    WF (exposed_delete_file s f v).1 := by
  unfold exposed_delete_file
  cases hv : s.filename_version f with
  | some cur =>
    by_cases hveq : v ≠ cur + 1
    · simp only [if_pos hveq]; exact hwf
    · simp only [if_neg hveq]
      cases hh : s.filename_hashlist f with
      | none =>
        exact absurd ((hwf f).1.mpr (by simp [hv])) (by simp [hh])
      | some hl0 =>
        intro g
        obtain ⟨w1, w2, w3, w4⟩ := hwf g
        obtain ⟨_, _, w3f, _⟩ := hwf f
        by_cases hgf : g = f
        · subst hgf
          refine ⟨by simp [Dict.erase_apply], ?_, ?_, ?_⟩
          · intro hcontr; simp [Dict.erase_apply] at hcontr
          · intro w hw; simp [Dict.erase_apply] at hw
          · intro w hw
            have h1 : 1 ≤ cur := w3f cur hv
            simp [Dict.insert_apply] at hw
            omega
        · simp only [Dict.insert_apply, Dict.erase_apply, if_neg hgf]
          exact ⟨w1, w2, w3, w4⟩
  | none =>
    cases ht : s.tombstone_filename_version f with
    | some t =>
      by_cases hveq : v ≠ t + 1
      · simp only [if_pos hveq]; exact hwf
      · simp only [if_neg hveq]
        intro g
        obtain ⟨w1, w2, w3, w4⟩ := hwf g
        obtain ⟨_, _, _, w4f⟩ := hwf f
        by_cases hgf : g = f
        · subst hgf
          refine ⟨w1, ?_, w3, ?_⟩
          · intro hs; exact absurd hs (by simp [hv])
          · intro w hw
            have h1 : 1 ≤ t := w4f t ht
            simp [Dict.insert_apply] at hw
            omega
        · simp only [Dict.insert_apply, if_neg hgf]
          exact ⟨w1, w2, w3, w4⟩
    | none => exact hwf

theorem reachable_wf {s : MetadataStore} (h : Reachable s) : WF s := by
  induction h with
  | init => exact wf_init
  | step _ hstep ih =>
    cases hstep with
    | modify conns f v hl => exact wf_modify _ conns f v hl ih
    | delete f v => exact wf_delete _ f v ih
    | read f => exact ih

/-! ### The block-gathering loop -/

theorem pyIndex_isSome_of_bounds {α : Type} (xs : List α) (i : Int)
    (h1 : 0 ≤ i) (h2 : i < (xs.length : Int)) : (pyIndex xs i).isSome = true := by
  unfold pyIndex
  rw [if_pos h1]
  have hlt : i.toNat < xs.length := by omega
  rw [List.get?_eq_get hlt]
  rfl

theorem gather_missing_blocks_eq_filter (conns : List BlockStore) (hl : HashList)
    (hidx : ∀ p ∈ hl, (pyIndex conns p.2).isSome = true) :
    gather_missing_blocks conns hl
      = some (List.map Prod.fst (List.filter (fun p => ! hasBlockAt conns p) hl)) := by
  induction hl with
  | nil => rfl
  | cons p rest ih =>
    have hp : (pyIndex conns p.2).isSome = true := hidx p (List.mem_cons_self p rest)
    obtain ⟨c, hc⟩ := Option.isSome_iff_exists.mp hp
    have hrest := ih (fun q hq => hidx q (List.mem_cons_of_mem p hq))
    unfold gather_missing_blocks
    rw [hc, hrest]
    cases hcb : c p.1 with
    | true => simp [List.filter_cons, hasBlockAt, hc, hcb]
    | false => simp [List.filter_cons, hasBlockAt, hc, hcb]

theorem gather_missing_blocks_of_bad_index (conns : List BlockStore) (hl : HashList)
    (h : ∃ p ∈ hl, pyIndex conns p.2 = none) :
    gather_missing_blocks conns hl = none := by
  induction hl with
  | nil => simp at h
  | cons p rest ih =>
    obtain ⟨q, hq, hnone⟩ := h
    unfold gather_missing_blocks
    rcases List.mem_cons.mp hq with heq | hmem
    · subst heq
      rw [hnone]
    · rw [ih ⟨q, hmem, hnone⟩]
      cases hpy : pyIndex conns p.2 <;> rfl

theorem gather_missing_blocks_all_present (conns : List BlockStore) (hl : HashList)
    (h : ∀ p ∈ hl, hasBlockAt conns p = true ∧ (pyIndex conns p.2).isSome = true) :
    gather_missing_blocks conns hl = some [] := by
  rw [gather_missing_blocks_eq_filter conns hl (fun p hp => (h p hp).2)]
  have hfe : List.filter (fun p => ! hasBlockAt conns p) hl = [] := by
    rw [List.filter_eq_nil_iff]
    intro p hp
    simp [(h p hp).1]
  rw [hfe]
  rfl

/-! ### Branch-reduction lemmas for the three operations -/

theorem exposed_modify_file_active (s : MetadataStore) (conns : List BlockStore)
    (f : String) (v : Int) (hl : HashList) (V : Int)
    (hver : s.filename_version f = some V) :
    exposed_modify_file s conns f v hl =
      if v ≠ V + 1 then (s, ModifyResult.versionConflict V)
      else modify_after_version_check s conns f hl := by
  unfold exposed_modify_file
  rw [hver]

theorem exposed_modify_file_not_active (s : MetadataStore) (conns : List BlockStore)
    (f : String) (v : Int) (hl : HashList)
    (hver : s.filename_version f = none) :
    exposed_modify_file s conns f v hl = modify_after_version_check s conns f hl := by
  unfold exposed_modify_file
  rw [hver]

theorem modify_after_index_error (s : MetadataStore) (conns : List BlockStore)
    (f : String) (hl : HashList)
    (hg : gather_missing_blocks conns hl = none) :
    modify_after_version_check s conns f hl = (s, ModifyResult.indexError) := by
  unfold modify_after_version_check
  rw [hg]

theorem modify_after_ne_index_of_gather_some (s : MetadataStore)
    (conns : List BlockStore) (f : String) (hl : HashList) (ms : List String)
    (hg : gather_missing_blocks conns hl = some ms) :
    (modify_after_version_check s conns f hl).2 ≠ ModifyResult.indexError := by
  unfold modify_after_version_check
  rw [hg]
  cases ms with
  | nil =>
    cases hh : s.filename_hashlist f with
    | some hl0 =>
      cases hv : s.filename_version f with
      | some cur => simp
      | none => simp
    | none =>
      cases ht : s.tombstone_filename_version f with
      | some t0 => simp
      | none => simp
  | cons a l => simp

theorem modify_after_missing (s : MetadataStore) (conns : List BlockStore)
    (f : String) (hl : HashList) (a : String) (ms : List String)
    (hg : gather_missing_blocks conns hl = some (a :: ms)) :
    modify_after_version_check s conns f hl = (s, ModifyResult.missingBlocks (a :: ms)) := by
  unfold modify_after_version_check
  rw [hg]

theorem modify_after_commit_active (s : MetadataStore) (conns : List BlockStore)
    (f : String) (hl hl0 : HashList) (cur : Int)
    (hg : gather_missing_blocks conns hl = some [])
    (hh : s.filename_hashlist f = some hl0)
    (hv : s.filename_version f = some cur) :
    modify_after_version_check s conns f hl =
      ({ filename_hashlist := Dict.insert s.filename_hashlist f hl,
         filename_version := Dict.insert s.filename_version f (cur + 1),
         tombstone_filename_version := s.tombstone_filename_version },
       ModifyResult.ok 0) := by
  unfold modify_after_version_check
  rw [hg, hh, hv]

theorem modify_after_commit_tombstoned (s : MetadataStore) (conns : List BlockStore)
    (f : String) (hl : HashList) (T : Int)
    (hg : gather_missing_blocks conns hl = some [])
    (hh : s.filename_hashlist f = none)
    (ht : s.tombstone_filename_version f = some T) :
    modify_after_version_check s conns f hl =
      ({ filename_hashlist := Dict.insert s.filename_hashlist f hl,
         filename_version := Dict.insert s.filename_version f (T + 1),
         tombstone_filename_version := Dict.erase s.tombstone_filename_version f },
       ModifyResult.ok 0) := by
  unfold modify_after_version_check
  rw [hg, hh, ht]

theorem modify_after_commit_unknown (s : MetadataStore) (conns : List BlockStore)
    (f : String) (hl : HashList)
    (hg : gather_missing_blocks conns hl = some [])
    (hh : s.filename_hashlist f = none)
    (ht : s.tombstone_filename_version f = none) :
    modify_after_version_check s conns f hl =
      ({ filename_hashlist := Dict.insert s.filename_hashlist f hl,
         filename_version := Dict.insert s.filename_version f 1,
         tombstone_filename_version := s.tombstone_filename_version },
       ModifyResult.ok 0) := by
  unfold modify_after_version_check
  rw [hg, hh, ht]

theorem exposed_delete_file_active (s : MetadataStore) (f : String) (v V : Int)
    (hv : s.filename_version f = some V) :
    exposed_delete_file s f v =
      if v ≠ V + 1 then (s, DeleteResult.versionConflict V)
      else
        match s.filename_hashlist f with
        | some _ =>
          ({ filename_hashlist := Dict.erase s.filename_hashlist f,
             filename_version := Dict.erase s.filename_version f,
             tombstone_filename_version :=
               Dict.insert s.tombstone_filename_version f (V + 1) },
           DeleteResult.ok (V + 1))
        | none =>
          ({ s with tombstone_filename_version :=
               Dict.insert s.tombstone_filename_version f (V + 1) },
           DeleteResult.keyError) := by
  unfold exposed_delete_file
  rw [hv]

theorem exposed_delete_file_tombstoned (s : MetadataStore) (f : String) (v T : Int)
    (hv : s.filename_version f = none)
    (ht : s.tombstone_filename_version f = some T) :
    exposed_delete_file s f v =
      if v ≠ T + 1 then (s, DeleteResult.versionConflict T)
      else
        ({ s with tombstone_filename_version :=
             Dict.insert s.tombstone_filename_version f (T + 1) },
         DeleteResult.ok (T + 1)) := by
  unfold exposed_delete_file
  rw [hv, ht]

theorem exposed_delete_file_unknown (s : MetadataStore) (f : String) (v : Int)
    (hv : s.filename_version f = none)
    (ht : s.tombstone_filename_version f = none) :
    exposed_delete_file s f v = (s, DeleteResult.notFound) := by
  unfold exposed_delete_file
  rw [hv, ht]

/-! ### Monotonicity of the observable version -/

theorem currentVersion_eq_of_version (s : MetadataStore) (f : String) (v : Int)
    (h : s.filename_version f = some v) : currentVersion s f = v := by
  unfold currentVersion
  rw [h]

theorem currentVersion_eq_of_tombstone (s : MetadataStore) (f : String) (v : Int)
    (h1 : s.filename_version f = none) (h2 : s.tombstone_filename_version f = some v) :
    currentVersion s f = v := by
  unfold currentVersion
  rw [h1, h2]

theorem currentVersion_eq_zero (s : MetadataStore) (f : String)
    (h1 : s.filename_version f = none) (h2 : s.tombstone_filename_version f = none) :
    currentVersion s f = 0 := by
  unfold currentVersion
  rw [h1, h2]

theorem currentVersion_congr (t s : MetadataStore) (f : String)
    (h1 : t.filename_version f = s.filename_version f)
    (h2 : t.tombstone_filename_version f = s.tombstone_filename_version f) :
    currentVersion t f = currentVersion s f := by
  unfold currentVersion
  rw [h1, h2]

theorem version_none_of_hashlist_none (s : MetadataStore) (g : String)
    (hwf : WF s) (hh : s.filename_hashlist g = none) :
    s.filename_version g = none := by
  cases hq : s.filename_version g with
  | none => rfl
  | some x =>
    have hcontr := (hwf g).1.mpr (by simp [hq])
    rw [hh] at hcontr
    simp at hcontr

theorem currentVersion_modify_after_mono (s : MetadataStore) (conns : List BlockStore)
    (g : String) (hl : HashList) (f : String) (hwf : WF s) :
    currentVersion s f ≤ currentVersion (modify_after_version_check s conns g hl).1 f := by
  unfold modify_after_version_check
  cases hg : gather_missing_blocks conns hl with
  | none => exact le_refl _
  | some ms =>
    cases ms with
    | cons a l => exact le_refl _
    | nil =>
      cases hh : s.filename_hashlist g with
      | some hl0 =>
        cases hv : s.filename_version g with
        | none => exact le_refl _
        | some cur =>
          by_cases hgf : f = g
          · subst hgf
            rw [currentVersion_eq_of_version s f cur hv,
                currentVersion_eq_of_version _ f (cur + 1) (by simp [Dict.insert_apply])]
            omega
          · exact le_of_eq (currentVersion_congr _ s f
              (by simp [Dict.insert_apply, if_neg hgf]) (by rfl)).symm
      | none =>
        have hv : s.filename_version g = none := version_none_of_hashlist_none s g hwf hh
        cases ht : s.tombstone_filename_version g with
        | some t0 =>
          by_cases hgf : f = g
          · subst hgf
            rw [currentVersion_eq_of_tombstone s f t0 hv ht,
                currentVersion_eq_of_version _ f (t0 + 1) (by simp [Dict.insert_apply])]
            omega
          · exact le_of_eq (currentVersion_congr _ s f
              (by simp [Dict.insert_apply, if_neg hgf])
              (by simp [Dict.erase_apply, if_neg hgf])).symm
        | none =>
          by_cases hgf : f = g
          · subst hgf
            rw [currentVersion_eq_zero s f hv ht,
                currentVersion_eq_of_version _ f 1 (by simp [Dict.insert_apply])]
            omega
          · exact le_of_eq (currentVersion_congr _ s f
              (by simp [Dict.insert_apply, if_neg hgf]) (by rfl)).symm

theorem currentVersion_modify_mono (s : MetadataStore) (conns : List BlockStore)
    (g : String) (v : Int) (hl : HashList) (f : String) (hwf : WF s) :
    currentVersion s f ≤ currentVersion (exposed_modify_file s conns g v hl).1 f := by
  unfold exposed_modify_file
  cases hv : s.filename_version g with
  | some cur =>
    by_cases hveq : v ≠ cur + 1
    · simp only [if_pos hveq]
      exact le_refl _
    · simp only [if_neg hveq]
      exact currentVersion_modify_after_mono s conns g hl f hwf
  | none => exact currentVersion_modify_after_mono s conns g hl f hwf

theorem currentVersion_delete_mono (s : MetadataStore) (g : String) (v : Int)
    (f : String) (hwf : WF s) :
    currentVersion s f ≤ currentVersion (exposed_delete_file s g v).1 f := by
  unfold exposed_delete_file
  cases hv : s.filename_version g with
  | some cur =>
    by_cases hveq : v ≠ cur + 1
    · simp only [if_pos hveq]
      exact le_refl _
    · simp only [if_neg hveq]
      cases hh : s.filename_hashlist g with
      | none =>
        exact absurd ((hwf g).1.mpr (by simp [hv])) (by simp [hh])
      | some hl0 =>
        by_cases hgf : f = g
        · subst hgf
          rw [currentVersion_eq_of_version s f cur hv,
              currentVersion_eq_of_tombstone _ f (cur + 1)
                (by simp [Dict.erase_apply]) (by simp [Dict.insert_apply])]
          omega
        · exact le_of_eq (currentVersion_congr _ s f
            (by simp [Dict.erase_apply, if_neg hgf])
            (by simp [Dict.insert_apply, if_neg hgf])).symm
  | none =>
    cases ht : s.tombstone_filename_version g with
    | some t0 =>
      by_cases hveq : v ≠ t0 + 1
      · simp only [if_pos hveq]
        exact le_refl _
      · simp only [if_neg hveq]
        by_cases hgf : f = g
        · subst hgf
          rw [currentVersion_eq_of_tombstone s f t0 hv ht,
              currentVersion_eq_of_tombstone _ f (t0 + 1) (by exact hv)
                (by simp [Dict.insert_apply])]
          omega
        · exact le_of_eq (currentVersion_congr _ s f (by rfl)
            (by simp [Dict.insert_apply, if_neg hgf])).symm
    | none => exact le_refl _

theorem currentVersion_step_mono (s t : MetadataStore) (f : String)
    (hwf : WF s) (hstep : Step s t) :
    currentVersion s f ≤ currentVersion t f := by
  cases hstep with
  | modify conns g v hl => exact currentVersion_modify_mono s conns g v hl f hwf
  | delete g v => exact currentVersion_delete_mono s g v f hwf
  | read g => exact le_refl _

/-! ### The claims -/

/-- C1: for a filename present in the metadata maps (Active) with current
version V, `exposed_modify_file` with a proposed version other than V + 1
fails with the versionConflict error carrying V and returns the state
unchanged (so the filename's version and blockList are untouched); with
proposed version V + 1 and every referenced block present in its shard, it
succeeds (returns 0) and the filename's version advances to exactly V + 1. -/
theorem modify_active_version_gate (s : MetadataStore) (conns : List BlockStore)
    (f : String) (v : Int) (hl : HashList) (V : Int) (hl0 : HashList)
    (hver : s.filename_version f = some V)
    (hhl : s.filename_hashlist f = some hl0) :
    (v ≠ V + 1 → exposed_modify_file s conns f v hl = (s, ModifyResult.versionConflict V))
    ∧ (v = V + 1 → gather_missing_blocks conns hl = some [] →
        (exposed_modify_file s conns f v hl).2 = ModifyResult.ok 0
        ∧ (exposed_modify_file s conns f v hl).1.filename_version f = some (V + 1)) := by
  constructor
  · intro hne
    rw [exposed_modify_file_active s conns f v hl V hver, if_pos hne]
  · intro heq hg
    rw [exposed_modify_file_active s conns f v hl V hver, if_neg (by simp [heq]),
        modify_after_commit_active s conns f hl hl0 V hg hhl hver]
    exact ⟨rfl, by simp [Dict.insert_apply]⟩

/-- C1 witness, on the concrete Active state `sActive` ("a.txt" at
version 1): proposing version 5 conflicts and reports current version 1
with the state unchanged; proposing version 2 with all blocks present
succeeds and moves the version to 2. -/
theorem modify_active_version_gate_spot :
    exposed_modify_file sActive connsEx "a.txt" 5 hlEx
      = (sActive, ModifyResult.versionConflict 1)
    ∧ (exposed_modify_file sActive connsEx "a.txt" 2 hlEx).2 = ModifyResult.ok 0
    ∧ (exposed_modify_file sActive connsEx "a.txt" 2 hlEx).1.filename_version "a.txt"
        = some 2 := by
  have h1 := modify_active_version_gate sActive connsEx "a.txt" 5 hlEx 1 hlEx rfl rfl
  have h2 := modify_active_version_gate sActive connsEx "a.txt" 2 hlEx 1 hlEx rfl rfl
  refine ⟨h1.1 (by decide), (h2.2 rfl (by rfl)).1, ?_⟩
  have h3 := (h2.2 rfl (by rfl)).2
  simpa using h3

/-- C2 counterexample to the claim as frozen.  In `sActive`, "a.txt" is
Active at version 1 and block h3 is absent from the only shard, yet the
call at proposed version 5 referencing the absent h3 fails with
versionConflict, not missingBlocks, because the version check runs first;
and a call (on an unknown name, so no version gate) whose blockList has an
absent block and an out-of-range shard index dies with the untyped
IndexError, again not missingBlocks. -/
theorem modify_missing_blocks_claim_counterexample :
    hasBlockAt connsEx ("h3", 0) = false
    ∧ (exposed_modify_file sActive connsEx "a.txt" 5 [("h3", 0)]).2
        = ModifyResult.versionConflict 1
    ∧ (exposed_modify_file sActive connsEx "a.txt" 5 [("h3", 0)]).2
        ≠ ModifyResult.missingBlocks ["h3"]
    ∧ (exposed_modify_file sActive connsEx "b.txt" 1 [("h3", 0), ("h1", 5)]).2
        = ModifyResult.indexError := by
  refine ⟨by decide, by decide, by decide, by decide⟩

/-- C2 (amended): for every ModifyFile call that passes the version
precheck (no entry in the version map, or the proposed version is exactly
current + 1) and all of whose shard indices are in range, if at least one
referenced block is absent from its shard then the call fails with
missingBlocks listing exactly the hashes whose shard reports absence, in
the blockList's original relative order with all misses accumulated, and
the filename's prior state is completely unchanged. -/
theorem modify_missing_blocks_accumulate (s : MetadataStore) (conns : List BlockStore)
    (f : String) (v : Int) (hl : HashList)
    (hver : s.filename_version f = none
            ∨ ∃ V : Int, s.filename_version f = some V ∧ v = V + 1)
    (hidx : ∀ p ∈ hl, (pyIndex conns p.2).isSome = true)
    (hmiss : ∃ p ∈ hl, hasBlockAt conns p = false) :
    exposed_modify_file s conns f v hl
      = (s, ModifyResult.missingBlocks
          (List.map Prod.fst (List.filter (fun p => ! hasBlockAt conns p) hl))) := by
  have hg := gather_missing_blocks_eq_filter conns hl hidx
  obtain ⟨p, hp, hb⟩ := hmiss
  have hmem : p ∈ List.filter (fun q => ! hasBlockAt conns q) hl :=
    List.mem_filter.mpr ⟨hp, by simp [hb]⟩
  have hcons : ∃ a, ∃ ms,
      List.map Prod.fst (List.filter (fun q => ! hasBlockAt conns q) hl) = a :: ms := by
    cases hfe : List.filter (fun q => ! hasBlockAt conns q) hl with
    | nil =>
      rw [hfe] at hmem
      simp at hmem
    | cons a l =>
      exact ⟨a.1, List.map Prod.fst l, by simp⟩
  obtain ⟨a, ms, hms⟩ := hcons
  have hafter : modify_after_version_check s conns f hl
      = (s, ModifyResult.missingBlocks (a :: ms)) :=
    modify_after_missing s conns f hl a ms (by rw [hg, hms])
  rcases hver with hnone | ⟨V, hV, hveq⟩
  · rw [exposed_modify_file_not_active s conns f v hl hnone, hafter, hms]
  · rw [exposed_modify_file_active s conns f v hl V hV, if_neg (by simp [hveq]),
        hafter, hms]

/-- C2 witness: on the unknown name "b.txt" with blockList
[h1, h3, h2, h4] against the single shard holding only h1 and h2, the call
fails with exactly the absent hashes [h3, h4] in submission order, state
unchanged. -/
theorem modify_missing_blocks_accumulate_spot :
    exposed_modify_file sActive connsEx "b.txt" 99 hlMiss
      = (sActive, ModifyResult.missingBlocks ["h3", "h4"]) := by
  have h := modify_missing_blocks_accumulate sActive connsEx "b.txt" 99 hlMiss
    (Or.inl rfl) (by decide) ⟨("h3", 0), by decide, by decide⟩
  rw [h]
  rfl

/-- C3: `exposed_delete_file` on an Active filename (entry in both
metadata maps) with current version V requires proposal V + 1; on success
it erases the active entries, records tombstone version V + 1 and returns
it.  On a Tombstoned filename with tombstone version T it requires
proposal T + 1 and on success increments the tombstone in place, returning
it.  A wrong proposal in either phase fails with versionConflict carrying
the current (active or tombstone) version and the state unchanged; an
Unknown filename fails with notFound. -/
theorem delete_file_state_machine (s : MetadataStore) (f : String) (v : Int) :
    (∀ V : Int, ∀ hl0 : HashList,
       s.filename_version f = some V → s.filename_hashlist f = some hl0 →
       (v ≠ V + 1 → exposed_delete_file s f v = (s, DeleteResult.versionConflict V))
       ∧ (v = V + 1 → exposed_delete_file s f v =
            ({ filename_hashlist := Dict.erase s.filename_hashlist f,
               filename_version := Dict.erase s.filename_version f,
               tombstone_filename_version :=
                 Dict.insert s.tombstone_filename_version f (V + 1) },
             DeleteResult.ok (V + 1))))
    ∧ (∀ T : Int, s.filename_version f = none → s.tombstone_filename_version f = some T →
       (v ≠ T + 1 → exposed_delete_file s f v = (s, DeleteResult.versionConflict T))
       ∧ (v = T + 1 → exposed_delete_file s f v =
            ({ s with tombstone_filename_version :=
                 Dict.insert s.tombstone_filename_version f (T + 1) },
             DeleteResult.ok (T + 1))))
    ∧ (s.filename_version f = none → s.tombstone_filename_version f = none →
        exposed_delete_file s f v = (s, DeleteResult.notFound)) := by
  refine ⟨?_, ?_, ?_⟩
  · intro V hl0 hV hh
    rw [exposed_delete_file_active s f v V hV, hh]
    constructor
    · intro hne
      rw [if_pos hne]
    · intro heq
      rw [if_neg (by simp [heq])]
  · intro T hV ht
    rw [exposed_delete_file_tombstoned s f v T hV ht]
    constructor
    · intro hne
      rw [if_pos hne]
    · intro heq
      rw [if_neg (by simp [heq])]
  · intro hV ht
    exact exposed_delete_file_unknown s f v hV ht

/-- C3 witness: deleting Active "a.txt" (version 1) at proposal 3
conflicts reporting 1; at proposal 2 it succeeds returning 2.  Deleting
Tombstoned "d.txt" (tombstone 2) at proposal 5 conflicts reporting 2; at
proposal 3 it succeeds returning 3.  Deleting the unknown "zzz" reports
notFound. -/
theorem delete_file_state_machine_spot :
    exposed_delete_file sActive "a.txt" 3 = (sActive, DeleteResult.versionConflict 1)
    ∧ (exposed_delete_file sActive "a.txt" 2).2 = DeleteResult.ok 2
    ∧ exposed_delete_file sTomb "d.txt" 5 = (sTomb, DeleteResult.versionConflict 2)
    ∧ (exposed_delete_file sTomb "d.txt" 3).2 = DeleteResult.ok 3
    ∧ exposed_delete_file sTomb "zzz" 1 = (sTomb, DeleteResult.notFound) := by
  have ha3 := ((delete_file_state_machine sActive "a.txt" 3).1 1 hlEx rfl rfl).1 (by decide)
  have ha2 := ((delete_file_state_machine sActive "a.txt" 2).1 1 hlEx rfl rfl).2 rfl
  have hd5 := ((delete_file_state_machine sTomb "d.txt" 5).2.1 2 rfl rfl).1 (by decide)
  have hd3 := ((delete_file_state_machine sTomb "d.txt" 3).2.1 2 rfl rfl).2 rfl
  have hz := (delete_file_state_machine sTomb "zzz" 1).2.2 rfl rfl
  refine ⟨ha3, ?_, hd5, ?_, hz⟩
  · rw [ha2]
    rfl
  · rw [hd3]
    rfl

/-- C4: on a filename with no entry in the version map (Unknown or
Tombstoned), `exposed_modify_file` performs no version check on the
caller's proposal: the outcome is identical for every proposed version,
and when all blocks are present the authority itself sets the new version
— 1 for an Unknown filename, tombstone + 1 for a Tombstoned one (whose
tombstone entry is cleared) — ignoring the proposal. -/
theorem modify_ignores_version_when_not_active (s : MetadataStore)
    (conns : List BlockStore) (f : String) (hl : HashList)
    (hver : s.filename_version f = none) (hh : s.filename_hashlist f = none) :
    (∀ v w : Int, exposed_modify_file s conns f v hl = exposed_modify_file s conns f w hl)
    ∧ (gather_missing_blocks conns hl = some [] →
        (s.tombstone_filename_version f = none → ∀ v : Int,
           (exposed_modify_file s conns f v hl).2 = ModifyResult.ok 0
           ∧ (exposed_modify_file s conns f v hl).1.filename_version f = some 1)
        ∧ (∀ T : Int, s.tombstone_filename_version f = some T → ∀ v : Int,
           (exposed_modify_file s conns f v hl).2 = ModifyResult.ok 0
           ∧ (exposed_modify_file s conns f v hl).1.filename_version f = some (T + 1)
           ∧ (exposed_modify_file s conns f v hl).1.tombstone_filename_version f
               = none)) := by
  constructor
  · intro v w
    rw [exposed_modify_file_not_active s conns f v hl hver,
        exposed_modify_file_not_active s conns f w hl hver]
  · intro hg
    constructor
    · intro ht v
      rw [exposed_modify_file_not_active s conns f v hl hver,
          modify_after_commit_unknown s conns f hl hg hh ht]
      exact ⟨rfl, by simp [Dict.insert_apply]⟩
    · intro T ht v
      rw [exposed_modify_file_not_active s conns f v hl hver,
          modify_after_commit_tombstoned s conns f hl T hg hh ht]
      exact ⟨rfl, by simp [Dict.insert_apply], by simp [Dict.erase_apply]⟩

/-- C4 witness: recreating the Tombstoned "d.txt" (tombstone version 2)
with the wildly wrong proposal 77 behaves exactly like proposal 3, succeeds,
sets the version to 3 ignoring the proposal, and clears the tombstone. -/
theorem modify_ignores_version_when_not_active_spot :
    exposed_modify_file sTomb connsEx "d.txt" 77 hlEx
      = exposed_modify_file sTomb connsEx "d.txt" 3 hlEx
    ∧ (exposed_modify_file sTomb connsEx "d.txt" 77 hlEx).2 = ModifyResult.ok 0
    ∧ (exposed_modify_file sTomb connsEx "d.txt" 77 hlEx).1.filename_version "d.txt"
        = some 3
    ∧ (exposed_modify_file sTomb connsEx "d.txt" 77 hlEx).1.tombstone_filename_version
        "d.txt" = none := by
  have h := modify_ignores_version_when_not_active sTomb connsEx "d.txt" hlEx rfl rfl
  have h2 := (h.2 (by decide)).2 2 rfl 77
  refine ⟨h.1 77 3, h2.1, ?_, h2.2.2⟩
  have h3 := h2.2.1
  simpa using h3

/-- C5: `exposed_read_file` returns `(version, blockList)` on an Active
filename, `(tombstoneVersion, [])` on a Tombstoned one, and `(0, [])` on
an Unknown one; on every reachable state it never fails.  It performs no
state mutation by construction: the Python method contains no assignment,
so its embedding consumes the state read-only and returns none of it. -/
theorem read_file_total (s : MetadataStore) (f : String) :
    (∀ V : Int, ∀ hl0 : HashList,
        s.filename_hashlist f = some hl0 → s.filename_version f = some V →
        exposed_read_file s f = some (V, hl0))
    ∧ (∀ T : Int, s.filename_hashlist f = none →
        s.tombstone_filename_version f = some T →
        exposed_read_file s f = some (T, []))
    ∧ (s.filename_hashlist f = none → s.tombstone_filename_version f = none →
        exposed_read_file s f = some (0, []))
    ∧ (Reachable s → (exposed_read_file s f).isSome = true) := by
  refine ⟨?_, ?_, ?_, ?_⟩
  · intro V hl0 hh hv
    unfold exposed_read_file
    rw [hh, hv]
  · intro T hh ht
    unfold exposed_read_file
    rw [hh, ht]
  · intro hh ht
    unfold exposed_read_file
    rw [hh, ht]
  · intro hr
    have hwf := reachable_wf hr
    cases hh : s.filename_hashlist f with
    | some hl0 =>
      have hv : (s.filename_version f).isSome = true := (hwf f).1.mp (by simp [hh])
      obtain ⟨V, hV⟩ := Option.isSome_iff_exists.mp hv
      unfold exposed_read_file
      rw [hh, hV]
      rfl
    | none =>
      cases ht : s.tombstone_filename_version f with
      | some T =>
        unfold exposed_read_file
        rw [hh, ht]
        rfl
      | none =>
        unfold exposed_read_file
        rw [hh, ht]
        rfl

/-- C5 witness: reads of an Active, a Tombstoned and an Unknown filename
at concrete states, plus non-failure at the reachable `initState`. -/
theorem read_file_total_spot :
    exposed_read_file sActive "a.txt" = some (1, hlEx)
    ∧ exposed_read_file sTomb "d.txt" = some (2, [])
    ∧ exposed_read_file sActive "nope" = some (0, [])
    ∧ (exposed_read_file initState "x").isSome = true := by
  refine ⟨(read_file_total sActive "a.txt").1 1 hlEx rfl rfl,
          (read_file_total sTomb "d.txt").2.1 2 rfl rfl,
          (read_file_total sActive "nope").2.2.1 rfl rfl,
          (read_file_total initState "x").2.2.2 Reachable.init⟩

/-- C6: on every reachable state every recorded version — active or
tombstone — is at least 1, so a filename's version is strictly positive
from the moment it leaves Unknown; and no further RPC step decreases the
version a filename exhibits across its Active/Tombstoned history
(`currentVersion` is non-decreasing along every operation sequence). -/
theorem version_positive_and_monotone (s t : MetadataStore) (f : String)
    (hr : Reachable s) :
    (∀ v : Int, s.filename_version f = some v → 1 ≤ v)
    ∧ (∀ v : Int, s.tombstone_filename_version f = some v → 1 ≤ v)
    ∧ (Step s t → currentVersion s f ≤ currentVersion t f) := by
  have hwf := reachable_wf hr
  obtain ⟨w1, w2, w3, w4⟩ := hwf f
  exact ⟨w3, w4, fun hstep => currentVersion_step_mono s t f hwf hstep⟩

/-- C6 witness: at the reachable state `sActive` (one create step from
`initState`) the recorded version of "a.txt" is positive, and the create
step itself did not decrease the observable version. -/
theorem version_positive_and_monotone_spot :
    (∀ v : Int, sActive.filename_version "a.txt" = some v → 1 ≤ v)
    ∧ currentVersion initState "a.txt" ≤ currentVersion sActive "a.txt" := by
  have hr : Reachable sActive :=
    Reachable.step Reachable.init (Step.modify initState connsEx "a.txt" 1 hlEx)
  have h1 := version_positive_and_monotone sActive sActive "a.txt" hr
  have h2 := version_positive_and_monotone initState sActive "a.txt" Reachable.init
  exact ⟨h1.1, h2.2.2 (Step.modify initState connsEx "a.txt" 1 hlEx)⟩

/-- C7: on every reachable state no filename is simultaneously Active and
Tombstoned: a filename recorded in either active map
(filename_hashlist / filename_version) has no entry in the tombstone map. -/
theorem active_never_tombstoned (s : MetadataStore) (f : String) (hr : Reachable s) :
    ((s.filename_hashlist f).isSome = true ∨ (s.filename_version f).isSome = true) →
    s.tombstone_filename_version f = none := by
  intro h
  have hwf := reachable_wf hr
  obtain ⟨w1, w2, _, _⟩ := hwf f
  rcases h with h | h
  · exact w2 (w1.mp h)
  · exact w2 h

/-- C7 witness: at the reachable state `sActive`, the Active "a.txt" has
no tombstone entry. -/
theorem active_never_tombstoned_spot :
    sActive.tombstone_filename_version "a.txt" = none :=
  active_never_tombstoned sActive "a.txt"
    (Reachable.step Reachable.init (Step.modify initState connsEx "a.txt" 1 hlEx))
    (Or.inr rfl)

/-- C8: on an Unknown filename (no entry in any map), a ModifyFile whose
blockList only references blocks present in their designated shards
succeeds, and an immediately following ReadFile returns version 1 together
with exactly the submitted blockList, element for element in submission
order. -/
theorem create_then_read (s : MetadataStore) (conns : List BlockStore)
    (f : String) (v : Int) (hl : HashList)
    (h1 : s.filename_hashlist f = none)
    (h2 : s.filename_version f = none)
    (h3 : s.tombstone_filename_version f = none)
    (hblocks : ∀ p ∈ hl, hasBlockAt conns p = true ∧ (pyIndex conns p.2).isSome = true) :
    (exposed_modify_file s conns f v hl).2 = ModifyResult.ok 0
    ∧ exposed_read_file (exposed_modify_file s conns f v hl).1 f = some (1, hl) := by
  have hg := gather_missing_blocks_all_present conns hl hblocks
  rw [exposed_modify_file_not_active s conns f v hl h2,
      modify_after_commit_unknown s conns f hl hg h1 h3]
  constructor
  · rfl
  · unfold exposed_read_file
    simp [Dict.insert_apply]

/-- C8 witness: creating "n.txt" from `initState` with blockList `hlEx`
(all blocks held by the shard) and an arbitrary proposal 42 succeeds, and
reading it back yields `(1, hlEx)`. -/
theorem create_then_read_spot :
    (exposed_modify_file initState connsEx "n.txt" 42 hlEx).2 = ModifyResult.ok 0
    ∧ exposed_read_file (exposed_modify_file initState connsEx "n.txt" 42 hlEx).1 "n.txt"
        = some (1, hlEx) :=
  create_then_read initState connsEx "n.txt" 42 hlEx rfl rfl rfl (by decide)

/-- C10: the block-validation loop performs no bounds check of its own on
the client-supplied shard index.  Under the precondition that every shard
index in the blockList lies in [0, number of shards), the connection
lookup always succeeds (the gathering never aborts) and the IndexError
outcome is unreachable.  Without that precondition, a Python out-of-range
index reached after a passing version precheck makes the call terminate
with the untyped IndexError — which is none of the typed protocol errors —
leaving the state unchanged. -/
theorem shard_index_unchecked (s : MetadataStore) (conns : List BlockStore)
    (f : String) (v : Int) (hl : HashList) :
    ((∀ p ∈ hl, 0 ≤ p.2 ∧ p.2 < (conns.length : Int)) →
        (gather_missing_blocks conns hl).isSome = true
        ∧ (exposed_modify_file s conns f v hl).2 ≠ ModifyResult.indexError)
    ∧ ((∃ p ∈ hl, pyIndex conns p.2 = none) →
        (s.filename_version f = none
         ∨ ∃ V : Int, s.filename_version f = some V ∧ v = V + 1) →
        exposed_modify_file s conns f v hl = (s, ModifyResult.indexError)) := by
  constructor
  · intro hin
    have hidx : ∀ p ∈ hl, (pyIndex conns p.2).isSome = true := fun p hp =>
      pyIndex_isSome_of_bounds conns p.2 (hin p hp).1 (hin p hp).2
    have hg := gather_missing_blocks_eq_filter conns hl hidx
    refine ⟨by rw [hg]; rfl, ?_⟩
    unfold exposed_modify_file
    cases hv : s.filename_version f with
    | some cur =>
      by_cases hveq : v ≠ cur + 1
      · simp only [if_pos hveq]
        simp
      · simp only [if_neg hveq]
        exact modify_after_ne_index_of_gather_some s conns f hl _ hg
    | none => exact modify_after_ne_index_of_gather_some s conns f hl _ hg
  · intro hbad hver
    have hg : gather_missing_blocks conns hl = none :=
      gather_missing_blocks_of_bad_index conns hl hbad
    rcases hver with hnone | ⟨V, hV, hveq⟩
    · rw [exposed_modify_file_not_active s conns f v hl hnone]
      exact modify_after_index_error s conns f hl hg
    · rw [exposed_modify_file_active s conns f v hl V hV, if_neg (by simp [hveq])]
      exact modify_after_index_error s conns f hl hg

/-- C10 witness: with in-range indices the gathering succeeds and a modify
never reports IndexError; with the out-of-range shard index 3 against the
single shard, the call on an unknown name dies with IndexError, state
unchanged. -/
theorem shard_index_unchecked_spot :
    (gather_missing_blocks connsEx hlEx).isSome = true
    ∧ (exposed_modify_file sActive connsEx "a.txt" 2 hlEx).2 ≠ ModifyResult.indexError
    ∧ exposed_modify_file sActive connsEx "b.txt" 7 [("h1", 3)]
        = (sActive, ModifyResult.indexError) := by
  have h1 := (shard_index_unchecked sActive connsEx "a.txt" 2 hlEx).1 (by decide)
  have h2 := (shard_index_unchecked sActive connsEx "b.txt" 7 [("h1", 3)]).2
    ⟨("h1", 3), by decide, by rfl⟩ (Or.inl rfl)
  exact ⟨h1.1, h1.2, h2⟩
